import Mathlib

/-!
Verification of the Stegos consensus / fork-resolution core against its
natural-language specification.

The Rust sources are shallowly embedded:
* machine integers become `Nat` / `Int` (no value in these modules approaches
  the 64-bit range, and no code relies on wrap-around);
* BLS pairing cryptography (crate `stegos_crypto::pbc::secure`, out of scope
  per spec §1) is modelled in its discrete-log collapse: a public key is its
  secret scalar, `H(h)` has scalar `h + 1`, a G1 signature is an `Int` scalar,
  and the pairing check `e(sig, G) = e(H(h), pk)` becomes
  `sig = pk * (h + 1)`.  Group addition in G1/G2 is scalar addition, exactly
  the aggregation structure the code uses;
* `BTreeSet` / `BTreeMap` become lists in ascending iteration order;
* Rust `assert!` (a panic) becomes an `Option` / dedicated error value.
-/

set_option linter.unusedVariables false

namespace Stegos

/-- Discrete logarithm of the hashed-to-G1 point `H(h)`; `h + 1` keeps it
nonzero so that signatures of distinct keys differ. -/
def hashScalar (h : Nat) : Int := (h : Int) + 1

/-- `pbc::secure::sign_hash(hash, skey)`: in the discrete-log collapse the
signature `skey * H(hash)` is the scalar `skey * hashScalar hash`. -/
def signHash (h : Nat) (sk : Nat) : Int := (sk : Int) * hashScalar h

/-- `pbc::secure::check_hash(hash, sig, pkey)`: the pairing check
`e(sig, G) = e(H(hash), pkey)`, in the discrete-log collapse
`sig = pkey * hashScalar hash`.  The public key of secret key `sk` is `sk`. -/
def checkHash (h : Nat) (sig : Int) (pk : Nat) : Bool :=
  sig == (pk : Int) * hashScalar h

namespace MultiSig

/-- `signatures.get(pkey)` on the `BTreeMap<PublicKey, Signature>`,
modelled as association-list lookup. -/
def lookupSig (pk : Nat) : List (Nat × Int) → Option Int
  | [] => none
  | (k, v) :: rest => if k = pk then some v else lookupSig pk rest

/-- The loop of `create_multi_signature` (multisignature.rs:45-55), iterating
the witnesses with their bit index: returns the running G1 sum `multisig`,
the set bits of `multisigmap`, and the consumed-signature `count`. -/
def createAux (sigs : List (Nat × Int)) : Nat → List Nat → Int × List Nat × Nat
  | _, [] => (0, [], 0)
  | bit, pk :: rest =>
    let r := createAux sigs (bit + 1) rest
    match lookupSig pk sigs with
    | none => r
    | some s => (s + r.1, bit :: r.2.1, r.2.2 + 1)

/-- `create_multi_signature` (multisignature.rs:38-60).  The `BTreeSet` of
witnesses is its ascending iteration order; `assert_eq!(count, signatures.len())`
is modelled by returning `none` (the `assert!(ok)` on bitmap insertion always
holds because bit indices are pairwise distinct). -/
def create_multi_signature (witnesses : List Nat) (signatures : List (Nat × Int)) :
    Option (Int × List Nat) :=
  let r := createAux signatures 0 witnesses
  if r.2.2 = signatures.length then some (r.1, r.2.1) else none

/-- The loop of `check_multi_signature` (multisignature.rs:74-81): accumulates
`has_leader` and the G2 sum of the public keys whose bit is set. -/
def checkAux (B : List Nat) (leader : Nat) : Nat → List Nat → Bool × Nat
  | _, [] => (false, 0)
  | bit, pk :: rest =>
    let r := checkAux B leader (bit + 1) rest
    if B.contains bit then (r.1 || pk == leader, pk + r.2) else r

/-- `check_multi_signature` (multisignature.rs:65-90).  Note: the source
function takes no `total_slots` argument and performs no stake or
supermajority check; it checks only the leader bit and the pairing. -/
def check_multi_signature (hash : Nat) (multisig : Int) (multisigmap : List Nat)
    (witnesses : List Nat) (leader : Nat) : Bool :=
  let r := checkAux multisigmap leader 0 witnesses
  if !r.1 then false else checkHash hash multisig r.2

/-- Spec §4.1: the public keys of `witnesses` standing at positions whose bit
is set in the bitmap (written from the spec, to compare with the code). -/
def setBitKeys (multisigmap witnesses : List Nat) : List Nat :=
  ((witnesses.enum.filter (fun p => multisigmap.contains p.1)).map Prod.snd)

/-- Spec §4.1: the G2 aggregate, "sums G2 public keys at positions with bit set". -/
def aggregateKey (multisigmap witnesses : List Nat) : Nat :=
  (setBitKeys multisigmap witnesses).sum

/-- Spec §4.1/§8: "the leader's bit is set in B". -/
def leaderBitSet (multisigmap witnesses : List Nat) (leader : Nat) : Bool :=
  (setBitKeys multisigmap witnesses).contains leader

/-- The witnesses whose key is present in the signature map: exactly those
contributing a bit in `create_multi_signature`. -/
def foundKeys (witnesses : List Nat) (sigs : List (Nat × Int)) : List Nat :=
  witnesses.filter (fun pk => (lookupSig pk sigs).isSome)

end MultiSig

end Stegos

namespace Stegos

namespace MultiSig

theorem lookupSig_isSome_iff (pk : Nat) (S : List (Nat × Int)) :
    (lookupSig pk S).isSome = true ↔ pk ∈ S.map Prod.fst := by
  induction S with
  | nil => simp [lookupSig]
  | cons p rest ih =>
    obtain ⟨k, v⟩ := p
    by_cases hk : k = pk
    · subst hk
      simp [lookupSig]
    · have hk2 : pk ≠ k := fun h => hk h.symm
      simp [lookupSig, hk, hk2, ih]

theorem lookupSig_mem (pk : Nat) (S : List (Nat × Int)) (v : Int)
    (h : lookupSig pk S = some v) : (pk, v) ∈ S := by
  induction S with
  | nil => simp [lookupSig] at h
  | cons p rest ih =>
    obtain ⟨k, w⟩ := p
    by_cases hk : k = pk
    · simp [lookupSig, hk] at h
      simp [hk, h]
    · simp [lookupSig, hk] at h
      exact List.mem_cons_of_mem _ (ih h)

theorem checkAux_eq (B : List Nat) (L : Nat) (b : Nat) (W : List Nat) :
    checkAux B L b W =
      ((((W.enumFrom b).filter (fun p => B.contains p.1)).map Prod.snd).contains L,
       (((W.enumFrom b).filter (fun p => B.contains p.1)).map Prod.snd).sum) := by
  induction W generalizing b with
  | nil => simp [checkAux]
  | cons pk rest ih =>
    by_cases hb : b ∈ B
    · simp [checkAux, hb, ih (b + 1), List.enumFrom_cons, List.filter_cons,
        Bool.or_comm, Bool.beq_comm]
    · simp [checkAux, hb, ih (b + 1), List.enumFrom_cons, List.filter_cons]

theorem createAux_bits (S : List (Nat × Int)) (b : Nat) (W : List Nat) :
    ∀ i ∈ (createAux S b W).2.1, b ≤ i := by
  induction W generalizing b with
  | nil => simp [createAux]
  | cons pk rest ih =>
    intro i hi
    simp only [createAux] at hi
    cases hlk : lookupSig pk S with
    | none =>
      simp [hlk] at hi
      exact Nat.le_of_succ_le (ih (b + 1) i hi)
    | some s =>
      simp [hlk] at hi
      rcases hi with hi | hi
      · omega
      · exact Nat.le_of_succ_le (ih (b + 1) i hi)

theorem checkAux_congr (L b : Nat) (W B1 B2 : List Nat)
    (h : ∀ i, b ≤ i → ((i ∈ B1) ↔ (i ∈ B2))) :
    checkAux B1 L b W = checkAux B2 L b W := by
  induction W generalizing b with
  | nil => simp [checkAux]
  | cons pk rest ih =>
    have hb : B1.contains b = B2.contains b := by
      have hiff := h b (Nat.le_refl b)
      by_cases hm : b ∈ B1
      · have hm2 := hiff.mp hm
        simp [hm, hm2]
      · have hm2 : b ∉ B2 := fun hx => hm (hiff.mpr hx)
        simp [hm, hm2]
    have hrest : checkAux B1 L (b + 1) rest = checkAux B2 L (b + 1) rest :=
      ih (b + 1) (fun i hi => h i (Nat.le_of_succ_le hi))
    simp only [checkAux]
    rw [hrest, hb]

theorem createAux_count (S : List (Nat × Int)) (b : Nat) (W : List Nat) :
    (createAux S b W).2.2 = (foundKeys W S).length := by
  induction W generalizing b with
  | nil => simp [createAux, foundKeys]
  | cons pk rest ih =>
    cases hlk : lookupSig pk S with
    | none => simp [createAux, hlk, foundKeys, List.filter_cons, ih (b + 1)]
    | some s => simp [createAux, hlk, foundKeys, List.filter_cons, ih (b + 1)]

theorem createAux_sig (S : List (Nat × Int)) (b : Nat) (W : List Nat) :
    (createAux S b W).1 =
      ((foundKeys W S).map (fun pk => (lookupSig pk S).getD 0)).sum := by
  induction W generalizing b with
  | nil => simp [createAux, foundKeys]
  | cons pk rest ih =>
    cases hlk : lookupSig pk S with
    | none => simp [createAux, hlk, foundKeys, List.filter_cons, ih (b + 1)]
    | some s => simp [createAux, hlk, foundKeys, List.filter_cons, ih (b + 1)]

theorem check_of_create (S : List (Nat × Int)) (L : Nat) (b : Nat) (W : List Nat) :
    checkAux (createAux S b W).2.1 L b W =
      ((foundKeys W S).contains L, (foundKeys W S).sum) := by
  induction W generalizing b with
  | nil => simp [checkAux, createAux, foundKeys]
  | cons pk rest ih =>
    have hlow := createAux_bits S (b + 1) rest
    cases hlk : lookupSig pk S with
    | none =>
      have hnotb : b ∉ (createAux S (b + 1) rest).2.1 := by
        intro hmem
        have := hlow b hmem
        omega
      have hcf : (createAux S (b + 1) rest).2.1.contains b = false := by
        simpa using hnotb
      simp only [createAux, hlk]
      rw [checkAux]
      simp only [hcf, Bool.false_eq_true, if_false]
      rw [ih (b + 1)]
      simp [foundKeys, List.filter_cons, hlk]
    | some s =>
      simp only [createAux, hlk]
      rw [checkAux]
      have hcongr : checkAux (b :: (createAux S (b + 1) rest).2.1) L (b + 1) rest =
          checkAux (createAux S (b + 1) rest).2.1 L (b + 1) rest := by
        apply checkAux_congr
        intro i hi
        have hne : i ≠ b := by omega
        simp [List.mem_cons, hne]
      rw [hcongr, ih (b + 1)]
      simp only [foundKeys, List.filter_cons, hlk]
      by_cases hLpk : L = pk
      · simp [hLpk, Bool.or_comm]
      · have hpkL : pk ≠ L := fun h => hLpk h.symm
        simp [hLpk, hpkL, Bool.or_comm]

theorem sum_map_mul_right (l : List Nat) (c : Int) :
    (l.map (fun x : Nat => (x : Int) * c)).sum = (l.sum : Int) * c := by
  induction l with
  | nil => simp
  | cons x rest ih =>
    simp only [List.map_cons, List.sum_cons, ih]
    push_cast
    ring

end MultiSig

end Stegos

namespace Stegos

namespace MultiSig

theorem foundKeys_mem_iff (W : List Nat) (S : List (Nat × Int))
    (hsub : ∀ k ∈ S.map Prod.fst, k ∈ W) :
    ∀ x, x ∈ foundKeys W S ↔ x ∈ S.map Prod.fst := by
  intro x
  constructor
  · intro hx
    have := List.of_mem_filter hx
    exact (lookupSig_isSome_iff x S).mp (by simpa using this)
  · intro hx
    apply List.mem_filter.mpr
    refine ⟨hsub x hx, ?_⟩
    simpa using (lookupSig_isSome_iff x S).mpr hx

end MultiSig

open MultiSig in
/-- C1 (amended): `check_multi_signature` returns true exactly when the
leader's bit is set in the bitmap and the aggregate of the public keys at the
set bit positions pair-verifies against the multi-signature.  The source
function takes no `total_slots` and performs no stake/supermajority check. -/
theorem c1_check_multi_signature_iff (h : Nat) (sigma : Int) (B W : List Nat) (L : Nat) :
    check_multi_signature h sigma B W L =
      (leaderBitSet B W L && checkHash h sigma (aggregateKey B W)) := by
  unfold check_multi_signature leaderBitSet aggregateKey setBitKeys
  rw [show (W.enum) = W.enumFrom 0 from rfl, checkAux_eq]
  cases hl : (((W.enumFrom 0).filter (fun p => B.contains p.1)).map Prod.snd).contains L <;>
    simp [hl]

open MultiSig in
/-- C1 (counterexample to the claim as stated): three equal-stake witnesses,
only the leader's bit set (one slot of three, strictly below the two-thirds
supermajority), pairing check passing: `check_multi_signature` returns true,
where the claim requires false. -/
theorem c1_counterexample :
    check_multi_signature 0 (signHash 0 1) [0] [1, 2, 3] 1 = true ∧
      3 * (setBitKeys [0] [1, 2, 3]).length < 2 * ([1, 2, 3] : List Nat).length := by
  decide

open MultiSig in
/-- C4: round-trip — aggregating a map of valid individual BLS signatures of
`h` whose keys all belong to the (canonically ordered, duplicate-free) witness
set, with the leader among the signers, yields a multi-signature that
`check_multi_signature` accepts. -/
theorem c4_create_then_check (h : Nat) (W : List Nat) (S : List (Nat × Int)) (L : Nat)
    (hW : W.Nodup) (hSkeys : (S.map Prod.fst).Nodup)
    (hsub : ∀ k ∈ S.map Prod.fst, k ∈ W)
    (hL : L ∈ S.map Prod.fst)
    (hvalid : ∀ p ∈ S, p.2 = signHash h p.1) :
    ∃ sigma B, create_multi_signature W S = some (sigma, B) ∧
      check_multi_signature h sigma B W L = true := by
  have hmem := foundKeys_mem_iff W S hsub
  have hfnd : (foundKeys W S).Nodup := hW.filter _
  have hperm : (foundKeys W S).Perm (S.map Prod.fst) :=
    (List.perm_ext_iff_of_nodup hfnd hSkeys).mpr hmem
  have hcount : (createAux S 0 W).2.2 = S.length := by
    rw [createAux_count, hperm.length_eq, List.length_map]
  have hcreate : create_multi_signature W S =
      some ((createAux S 0 W).1, (createAux S 0 W).2.1) := by
    unfold create_multi_signature
    simp [hcount]
  have hsigval : (createAux S 0 W).1 = ((foundKeys W S).sum : Int) * hashScalar h := by
    rw [createAux_sig]
    have hmapeq : (foundKeys W S).map (fun pk => (lookupSig pk S).getD 0) =
        (foundKeys W S).map (fun pk : Nat => (pk : Int) * hashScalar h) := by
      apply List.map_congr_left
      intro pk hpk
      have hiso : (lookupSig pk S).isSome = true := by
        simpa using List.of_mem_filter hpk
      cases hlk : lookupSig pk S with
      | none => rw [hlk] at hiso; simp at hiso
      | some v =>
        have hv := hvalid _ (lookupSig_mem pk S v hlk)
        simp only [Option.getD_some, hlk]
        simpa [signHash] using hv
    rw [hmapeq, sum_map_mul_right]
  refine ⟨(createAux S 0 W).1, (createAux S 0 W).2.1, hcreate, ?_⟩
  unfold check_multi_signature
  rw [check_of_create S L 0 W]
  have hlead : (foundKeys W S).contains L = true := by
    simpa using (hmem L).mpr hL
  simp only [hlead, Bool.not_true, Bool.false_eq_true, if_false]
  rw [hsigval]
  simp [checkHash]

open MultiSig in
/-- Witness for C4 at a concrete input: two witnesses `1, 2`, both signing
hash `5`, leader `1`. -/
theorem c4_create_then_check_witness :
    ∃ sigma B, create_multi_signature [1, 2] [(1, 6), (2, 12)] = some (sigma, B) ∧
      check_multi_signature 5 sigma B [1, 2] 1 = true :=
  c4_create_then_check 5 [1, 2] [(1, 6), (2, 12)] 1 (by decide) (by decide)
    (by decide) (by decide) (by decide)

end Stegos

namespace Stegos

namespace Msg

/-- The literal discriminator strings "Propose" / "Prevote" / "Precommit" of
`ConsensusMessageBody`'s `Hashable` impl, modelled as an enumeration of three
distinct opaque constants (the hasher treats the strings opaquely). -/
inductive BodyTag where
  | propose
  | prevote
  | precommit
deriving DecidableEq

/-- One item fed to the canonical `Hasher` (crate `stegos_crypto::hash`):
primitive values, nested digests, and the variant tag strings. -/
inductive Atom where
  | nat (n : Nat)
  | tag (t : BodyTag)
  | int (i : Int)
  | hsh (h : Nat)
deriving DecidableEq

/-- Numeric code of one tag. -/
def tagVal : BodyTag → Nat
  | .propose => 0
  | .prevote => 1
  | .precommit => 2

/-- Numeric code of one atom (an arbitrary concrete injection per variant;
nothing in the claims relies on collision freedom of the digest). -/
def atomVal : Atom → Nat
  | .nat n => 4 * n
  | .tag t => 4 * tagVal t + 1
  | .int i => 4 * (2 * i.natAbs + (if i < 0 then 1 else 0)) + 2
  | .hsh h => 4 * h + 3

/-- `Hasher::result()`: collapse the accumulated atom stream to a digest. -/
def hasherResult (atoms : List Atom) : Nat :=
  atoms.foldl (fun acc a => 1000003 * acc + atomVal a + 1) 0

/-- `ConsensusMessageBody` (message.rs:31-38). -/
inductive ConsensusMessageBody (Request Proof : Type) where
  | proposal (request : Request) (proof : Proof)
  | prevote
  | precommit (requestHashSig : Int)
deriving DecidableEq

/-- The `Hashable` impl of `ConsensusMessageBody` (message.rs:40-57): each
variant is tagged with its literal discriminator string, then its payload is
hashed into the same hasher. -/
def hashBody {Request Proof : Type} (hashReq : Request → List Atom)
    (hashProof : Proof → List Atom) :
    ConsensusMessageBody Request Proof → List Atom
  | .proposal request proof => Atom.tag .propose :: (hashReq request ++ hashProof proof)
  | .prevote => [Atom.tag .prevote]
  | .precommit requestHashSig => [Atom.tag .precommit, Atom.int requestHashSig]

/-- `ConsensusMessage` (message.rs:61-74). -/
structure ConsensusMessage (Request Proof : Type) where
  round : Nat
  height : Nat
  requestHash : Nat
  body : ConsensusMessageBody Request Proof
  pkey : Nat
  sig : Int
deriving DecidableEq

/-- The hash computed by both `ConsensusMessage::new` (message.rs:98-103) and
`ConsensusMessage::validate` (message.rs:122-127): it feeds `height`, `round`,
`request_hash` and `body` to the hasher — `pkey` and `sig` are not hashed. -/
def signedHash {Request Proof : Type} (hashReq : Request → List Atom)
    (hashProof : Proof → List Atom) (height round requestHash : Nat)
    (body : ConsensusMessageBody Request Proof) : Nat :=
  hasherResult (Atom.nat height :: Atom.nat round :: Atom.hsh requestHash ::
    hashBody hashReq hashProof body)

/-- `ConsensusMessage::new` (message.rs:90-113): hash the four fields, sign
with `skey`, store `pkey` verbatim. -/
def ConsensusMessage.new {Request Proof : Type} (hashReq : Request → List Atom)
    (hashProof : Proof → List Atom) (height round requestHash : Nat)
    (skey pkey : Nat) (body : ConsensusMessageBody Request Proof) :
    ConsensusMessage Request Proof :=
  { round := round, height := height, requestHash := requestHash, body := body,
    pkey := pkey,
    sig := signHash (signedHash hashReq hashProof height round requestHash body) skey }

/-- `ConsensusError` as used by `validate` (error.rs): only the two variants
`validate` can produce. -/
inductive ConsensusError (E : Type) where
  | invalidMessageSignature
  | invalidPropose (e : E)
deriving DecidableEq

/-- `ConsensusMessage::validate` (message.rs:118-142): recompute the signed
hash, run the pairing check, then for proposals run the externally supplied
request predicate. -/
def ConsensusMessage.validate {Request Proof E : Type} (hashReq : Request → List Atom)
    (hashProof : Proof → List Atom) (m : ConsensusMessage Request Proof)
    (validateRequest : Nat → Request → Nat → Except E Unit) :
    Except (ConsensusError E) Unit :=
  let h := signedHash hashReq hashProof m.height m.round m.requestHash m.body
  if checkHash h m.sig m.pkey then
    match m.body with
    | .proposal request _proof =>
      match validateRequest m.requestHash request m.round with
      | .error e => .error (.invalidPropose e)
      | .ok _ => .ok ()
    | _ => .ok ()
  else .error .invalidMessageSignature

end Msg

end Stegos

namespace Stegos

namespace Msg

/-- The hash `validate` recomputes for a given message: the four signed fields
of `m` fed to the hasher. -/
def ConsensusMessage.signedHashOf {Request Proof : Type} (hashReq : Request → List Atom)
    (hashProof : Proof → List Atom) (m : ConsensusMessage Request Proof) : Nat :=
  signedHash hashReq hashProof m.height m.round m.requestHash m.body

/-- Hashing for `Nat`-instantiated requests and proofs, used at concrete
inputs. -/
def natAtoms (n : Nat) : List Atom := [Atom.nat n]

theorem validate_eq {Request Proof E : Type} (hashReq : Request → List Atom)
    (hashProof : Proof → List Atom) (m : ConsensusMessage Request Proof)
    (f : Nat → Request → Nat → Except E Unit) :
    m.validate hashReq hashProof f =
      if checkHash (m.signedHashOf hashReq hashProof) m.sig m.pkey then
        match m.body with
        | .proposal request _proof =>
          match f m.requestHash request m.round with
          | .error e => .error (.invalidPropose e)
          | .ok _ => .ok ()
        | _ => .ok ()
      else .error .invalidMessageSignature := rfl

end Msg

end Stegos

namespace Stegos

open Msg in
/-- C3 (counterexample to the claim as stated): two consensus messages that
are identical except for `sender_pk` nevertheless produce the same signed
hash, because `new` and `validate` hash only height, round, request_hash and
body — the claim requires the hashes to differ. -/
theorem c3_counterexample :
    (({ round := 2, height := 1, requestHash := 3, body := .prevote, pkey := 5, sig := 0 } :
        ConsensusMessage Nat Nat).pkey ≠
      ({ round := 2, height := 1, requestHash := 3, body := .prevote, pkey := 7, sig := 0 } :
        ConsensusMessage Nat Nat).pkey) ∧
    ConsensusMessage.signedHashOf natAtoms natAtoms
        ({ round := 2, height := 1, requestHash := 3, body := .prevote, pkey := 5, sig := 0 } :
          ConsensusMessage Nat Nat) =
      ConsensusMessage.signedHashOf natAtoms natAtoms
        ({ round := 2, height := 1, requestHash := 3, body := .prevote, pkey := 7, sig := 0 } :
          ConsensusMessage Nat Nat) := by
  constructor
  · decide
  · rfl

open Msg in
/-- C3 (amended): the `sender_sig` of a message built by
`ConsensusMessage::new` is the BLS signature over the canonical hash of the
four fields height, round, request_hash and body — `sender_pk` is excluded
along with `sender_sig`; consequently messages identical except for
`sender_pk` (and signature) share the signed hash, and `validate` checks the
signature against that same four-field hash. -/
theorem c3_signature_covers_four_fields {R P : Type}
    (hr : R → List Atom) (hp : P → List Atom) :
    (∀ (height round requestHash skey pkey : Nat) (body : ConsensusMessageBody R P),
      (ConsensusMessage.new hr hp height round requestHash skey pkey body).sig =
        signHash (signedHash hr hp height round requestHash body) skey) ∧
    (∀ (height round requestHash : Nat) (body : ConsensusMessageBody R P)
        (pk1 sig1 pk2 sig2),
      ConsensusMessage.signedHashOf hr hp ⟨round, height, requestHash, body, pk1, sig1⟩ =
        ConsensusMessage.signedHashOf hr hp ⟨round, height, requestHash, body, pk2, sig2⟩) ∧
    (∀ (E : Type) (m : ConsensusMessage R P) (f : Nat → R → Nat → Except E Unit),
      checkHash (m.signedHashOf hr hp) m.sig m.pkey = true →
        m.validate hr hp f ≠ Except.error ConsensusError.invalidMessageSignature) := by
  refine ⟨fun _ _ _ _ _ _ => rfl, fun _ _ _ _ _ _ _ _ => rfl, ?_⟩
  intro E m f hchk
  rw [validate_eq, hchk]
  cases hbody : m.body with
  | proposal request proof =>
    cases hf : f m.requestHash request m.round <;> simp [hf]
  | prevote => simp
  | precommit s => simp

open Msg in
/-- Witness for C3's amended theorem at a concrete input. -/
theorem c3_signature_covers_four_fields_witness :
    (ConsensusMessage.new natAtoms natAtoms 1 2 3 5 9 .prevote).sig =
      signHash (signedHash natAtoms natAtoms 1 2 3
        (ConsensusMessageBody.prevote : ConsensusMessageBody Nat Nat)) 5 :=
  (c3_signature_covers_four_fields natAtoms natAtoms).1 1 2 3 5 9 .prevote

open Msg in
/-- C7: `validate` fails with `InvalidMessageSignature` exactly when the
pairing check of the message signature over the canonical message hash
against the sender key fails; with the signature check passing, a `Proposal`
body surfaces a predicate failure as `InvalidPropose` and a passing predicate
as `Ok`, and `Prevote`/`Precommit` bodies return `Ok`; a message produced by
`new` with a matching keypair passes the signature check. -/
theorem c7_validate_characterization {R P E : Type}
    (hr : R → List Atom) (hp : P → List Atom)
    (m : ConsensusMessage R P) (f : Nat → R → Nat → Except E Unit) :
    (m.validate hr hp f = Except.error ConsensusError.invalidMessageSignature ↔
      checkHash (m.signedHashOf hr hp) m.sig m.pkey = false) ∧
    (checkHash (m.signedHashOf hr hp) m.sig m.pkey = true →
      (∀ request proof e, m.body = .proposal request proof →
        f m.requestHash request m.round = Except.error e →
        m.validate hr hp f = Except.error (ConsensusError.invalidPropose e)) ∧
      (∀ request proof, m.body = .proposal request proof →
        f m.requestHash request m.round = Except.ok () →
        m.validate hr hp f = Except.ok ()) ∧
      (m.body = .prevote → m.validate hr hp f = Except.ok ()) ∧
      (∀ s, m.body = .precommit s → m.validate hr hp f = Except.ok ())) ∧
    (∀ (height round requestHash skey : Nat) (body : ConsensusMessageBody R P),
      checkHash
        ((ConsensusMessage.new hr hp height round requestHash skey skey body).signedHashOf hr hp)
        (ConsensusMessage.new hr hp height round requestHash skey skey body).sig
        (ConsensusMessage.new hr hp height round requestHash skey skey body).pkey = true) := by
  refine ⟨?_, ?_, ?_⟩
  · rw [validate_eq]
    cases hchk : checkHash (m.signedHashOf hr hp) m.sig m.pkey with
    | false => simp
    | true =>
      simp only [if_pos rfl]
      cases hbody : m.body with
      | proposal request proof =>
        cases hf : f m.requestHash request m.round <;> simp [hf]
      | prevote => simp
      | precommit s => simp
  · intro hchk
    refine ⟨?_, ?_, ?_, ?_⟩
    · intro request proof e hbody hf
      rw [validate_eq, hchk, hbody]
      simp [hf]
    · intro request proof hbody hf
      rw [validate_eq, hchk, hbody]
      simp [hf]
    · intro hbody
      rw [validate_eq, hchk, hbody]
      simp
    · intro s hbody
      rw [validate_eq, hchk, hbody]
      simp
  · intro height round requestHash skey body
    simp [ConsensusMessage.new, ConsensusMessage.signedHashOf, checkHash, signHash]

open Msg in
/-- Witness for C7 at concrete inputs: a freshly signed `Prevote` validates,
and a zero-signature message is rejected with `InvalidMessageSignature`. -/
theorem c7_validate_characterization_witness :
    (ConsensusMessage.new natAtoms natAtoms 1 2 3 5 5 .prevote).validate natAtoms natAtoms
        (fun _ _ _ => (Except.ok () : Except Unit Unit)) = Except.ok () ∧
    ({ round := 2, height := 1, requestHash := 3, body := .prevote, pkey := 5, sig := 0 } :
        ConsensusMessage Nat Nat).validate natAtoms natAtoms
        (fun _ _ _ => (Except.ok () : Except Unit Unit)) =
      Except.error ConsensusError.invalidMessageSignature := by
  constructor
  · exact ((c7_validate_characterization natAtoms natAtoms
      (ConsensusMessage.new natAtoms natAtoms 1 2 3 5 5 .prevote)
      (fun _ _ _ => (Except.ok () : Except Unit Unit))).2.1 (by decide)).2.2.1 rfl
  · exact (c7_validate_characterization natAtoms natAtoms
      ({ round := 2, height := 1, requestHash := 3, body := .prevote, pkey := 5, sig := 0 } :
        ConsensusMessage Nat Nat)
      (fun _ _ _ => (Except.ok () : Except Unit Unit))).1.mpr (by decide)

end Stegos

namespace Stegos

namespace Wallet

/-- `WalletError` as reachable from `find_utxo`: `NotEnoughMoney`, plus a
dedicated value standing for the `assert!` panics on negative arguments
(change.rs:36-38). -/
inductive WalletError where
  | notEnoughMoney
  | assertFail
deriving DecidableEq

/-- The greedy pass of `find_utxo` (change.rs:59-65 and 73-79): subtract the
amounts in list order, pushing each visited entry, breaking as soon as the
running `change` drops to zero or below.  Entries are kept together with
their amounts (the source pushes the `&T` reference whose amount is the
paired value). -/
def spendLoop {α : Type} : List (α × Int) → Int → List (α × Int) × Int
  | [], change => ([], change)
  | (o, a) :: rest, change =>
    let change1 := change - a
    if change1 ≤ 0 then ([(o, a)], change1)
    else
      let r := spendLoop rest change1
      ((o, a) :: r.1, r.2)

/-- The scan of the input iterator (change.rs:40-45): the first output whose
amount equals `sum + fee`, if any. -/
def findExact {α : Type} : List (α × Int) → Int → Option (α × Int)
  | [], _ => none
  | (o, a) :: rest, target =>
    if a = target then some (o, a) else findExact rest target

/-- `find_utxo` (change.rs:27-86): exact match first, then the no-change
greedy pass with budget `sum + fee`, then the with-change pass with budget
`sum + fee_change`.  `sort_by_key` (stable, ascending by amount) is modelled
by a stable insertion sort. -/
def find_utxo {α : Type} (unspent : List (α × Int)) (sum fee feeChange : Int) :
    Except WalletError (List (α × Int) × Int × Int) :=
  if sum < 0 ∨ fee < 0 ∨ feeChange < 0 then .error .assertFail
  else
    match findExact unspent (sum + fee) with
    | some e => .ok ([e], fee, 0)
    | none =>
      let sorted := unspent.insertionSort (fun p q => p.2 ≤ q.2)
      let r1 := spendLoop sorted (sum + fee)
      if r1.2 = 0 then .ok (r1.1, fee, 0)
      else
        let r2 := spendLoop sorted (sum + feeChange)
        if r2.2 > 0 then .error .notEnoughMoney
        else .ok (r2.1, feeChange, -r2.2)

end Wallet

end Stegos

namespace Stegos

namespace Wallet

theorem spendLoop_sum {α : Type} :
    ∀ (l : List (α × Int)) (c : Int),
      (spendLoop l c).2 = c - ((spendLoop l c).1.map Prod.snd).sum := by
  intro l
  induction l with
  | nil => intro c; simp [spendLoop]
  | cons p rest ih =>
    intro c
    obtain ⟨o, a⟩ := p
    by_cases hle : c - a ≤ 0
    · simp [spendLoop, hle]
    · simp only [spendLoop, if_neg hle, List.map_cons, List.sum_cons]
      rw [ih (c - a)]
      ring

theorem spendLoop_le_or_all {α : Type} :
    ∀ (l : List (α × Int)) (c : Int),
      (spendLoop l c).2 ≤ 0 ∨ (spendLoop l c).1 = l := by
  intro l
  induction l with
  | nil => intro c; simp [spendLoop]
  | cons p rest ih =>
    intro c
    obtain ⟨o, a⟩ := p
    by_cases hle : c - a ≤ 0
    · left
      simp [spendLoop, hle]
    · rcases ih (c - a) with h | h
      · left
        simp [spendLoop, hle, h]
      · right
        simp [spendLoop, hle, h]

theorem findExact_amount {α : Type} :
    ∀ (l : List (α × Int)) (t : Int) (e : α × Int),
      findExact l t = some e → e.2 = t := by
  intro l
  induction l with
  | nil => intro t e h; simp [findExact] at h
  | cons p rest ih =>
    intro t e h
    obtain ⟨o, a⟩ := p
    by_cases ha : a = t
    · simp only [findExact, if_pos ha] at h
      cases h
      exact ha
    · simp only [findExact, if_neg ha] at h
      exact ih t e h

/-- Master case analysis of `find_utxo` under the `assert!` preconditions:
either an exact or no-change result with `fee` and zero change, or a
with-change result with `fee_change` and nonnegative change, or
`NotEnoughMoney` with the total below `sum + fee_change`; in every `Ok`
branch the spent amounts sum to `sum + fee_used + change`. -/
theorem find_utxo_spec {α : Type} (unspent : List (α × Int)) (sum fee feeChange : Int)
    (h1 : 0 ≤ sum) (h2 : 0 ≤ fee) (h3 : 0 ≤ feeChange) :
    (∃ spent, find_utxo unspent sum fee feeChange = .ok (spent, fee, 0) ∧
      (spent.map Prod.snd).sum = sum + fee) ∨
    (∃ spent change, find_utxo unspent sum fee feeChange = .ok (spent, feeChange, change) ∧
      0 ≤ change ∧ (spent.map Prod.snd).sum = sum + feeChange + change) ∨
    (find_utxo unspent sum fee feeChange = .error .notEnoughMoney ∧
      (unspent.map Prod.snd).sum < sum + feeChange) := by
  have hcond : ¬(sum < 0 ∨ fee < 0 ∨ feeChange < 0) := by omega
  unfold find_utxo
  rw [if_neg hcond]
  cases hfe : findExact unspent (sum + fee) with
  | some e =>
    left
    refine ⟨[e], rfl, ?_⟩
    have := findExact_amount unspent (sum + fee) e hfe
    simp [this]
  | none =>
    set sorted := unspent.insertionSort (fun p q => p.2 ≤ q.2) with hsorted
    by_cases hr1 : (spendLoop sorted (sum + fee)).2 = 0
    · left
      refine ⟨(spendLoop sorted (sum + fee)).1, by simp [hr1], ?_⟩
      have hs := spendLoop_sum sorted (sum + fee)
      rw [hr1] at hs
      omega
    · by_cases hr2 : (spendLoop sorted (sum + feeChange)).2 > 0
      · right; right
        constructor
        · simp [hr1, hr2]
        · rcases spendLoop_le_or_all sorted (sum + feeChange) with h | h
          · omega
          · have hs := spendLoop_sum sorted (sum + feeChange)
            rw [h] at hs
            have hperm : (sorted.map Prod.snd).Perm (unspent.map Prod.snd) :=
              (List.perm_insertionSort _ unspent).map Prod.snd
            have hsum : (sorted.map Prod.snd).sum = (unspent.map Prod.snd).sum :=
              hperm.sum_eq
            omega
      · right; left
        refine ⟨(spendLoop sorted (sum + feeChange)).1,
          -(spendLoop sorted (sum + feeChange)).2, by simp [hr1, hr2], by omega, ?_⟩
        have hs := spendLoop_sum sorted (sum + feeChange)
        omega

end Wallet

end Stegos

namespace Stegos

open Wallet in
/-- C5 (counterexample to the claim as stated, the input of the crate's own
`test_find_utxo`): amounts `[100, 50, 10, 2, 1]`, `sum = 161`, `fee = 1`,
`fee_change = 2` — the result has `change = 0` yet `fee_used = fee_change ≠
fee`, so `fee_used = fee ⇔ change = 0` fails. -/
theorem c5_counterexample :
    find_utxo [((0 : Nat), (100 : Int)), (1, 50), (2, 10), (3, 2), (4, 1)] 161 1 2 =
      Except.ok ([(4, 1), (3, 2), (2, 10), (1, 50), (0, 100)], 2, 0) ∧
    ¬(((2 : Int) = (1 : Int)) ↔ ((0 : Int) = (0 : Int))) := by
  exact ⟨rfl, by decide⟩

open Wallet in
/-- C5 (amended): on `Ok (spent, fee_used, change)`, `fee_used` is `fee` or
`fee_change`, and whenever `change ≠ 0` the function used `fee_change`; the
converse (`change = 0 → fee_used = fee`) does not hold. -/
theorem c5_fee_used {α : Type} (unspent : List (α × Int)) (sum fee feeChange : Int)
    (h1 : 0 ≤ sum) (h2 : 0 ≤ fee) (h3 : 0 ≤ feeChange)
    (hamounts : ∀ p ∈ unspent, 0 ≤ p.2)
    (spent : List (α × Int)) (feeUsed change : Int)
    (hok : find_utxo unspent sum fee feeChange = Except.ok (spent, feeUsed, change)) :
    (feeUsed = fee ∨ feeUsed = feeChange) ∧ (change ≠ 0 → feeUsed = feeChange) := by
  rcases find_utxo_spec unspent sum fee feeChange h1 h2 h3 with
    ⟨sp, heq, _⟩ | ⟨sp, ch, heq, _, _⟩ | ⟨heq, _⟩
  · rw [heq] at hok
    obtain ⟨rfl, rfl, rfl⟩ : sp = spent ∧ fee = feeUsed ∧ (0 : Int) = change := by
      simpa using hok
    exact ⟨Or.inl rfl, fun hc => absurd rfl hc⟩
  · rw [heq] at hok
    obtain ⟨rfl, rfl, rfl⟩ : sp = spent ∧ feeChange = feeUsed ∧ ch = change := by
      simpa using hok
    exact ⟨Or.inr rfl, fun _ => rfl⟩
  · rw [heq] at hok
    simp at hok

open Wallet in
/-- Witness for C5's amended theorem at a concrete input (the exact-match case
of the crate's test: `sum = 49`, `fee = 1`). -/
theorem c5_fee_used_witness :
    (((1 : Int) = 1 ∨ (1 : Int) = 2) ∧ ((0 : Int) ≠ 0 → (1 : Int) = 2)) :=
  c5_fee_used [((0 : Nat), (100 : Int)), (1, 50), (2, 10), (3, 2), (4, 1)] 49 1 2
    (by decide) (by decide) (by decide) (by decide)
    [(1, 50)] 1 0 rfl

open Wallet in
/-- C6: on `Ok (spent, fee_used, change)`, the amounts of the selected
entries sum to `sum + fee_used + change`, and `change ≥ 0`. -/
theorem c6_balance {α : Type} (unspent : List (α × Int)) (sum fee feeChange : Int)
    (h1 : 0 ≤ sum) (h2 : 0 ≤ fee) (h3 : 0 ≤ feeChange)
    (hamounts : ∀ p ∈ unspent, 0 ≤ p.2)
    (spent : List (α × Int)) (feeUsed change : Int)
    (hok : find_utxo unspent sum fee feeChange = Except.ok (spent, feeUsed, change)) :
    (spent.map Prod.snd).sum = sum + feeUsed + change ∧ 0 ≤ change := by
  rcases find_utxo_spec unspent sum fee feeChange h1 h2 h3 with
    ⟨sp, heq, hsum⟩ | ⟨sp, ch, heq, hch, hsum⟩ | ⟨heq, _⟩
  · rw [heq] at hok
    obtain ⟨rfl, rfl, rfl⟩ : sp = spent ∧ fee = feeUsed ∧ (0 : Int) = change := by
      simpa using hok
    exact ⟨by omega, le_refl 0⟩
  · rw [heq] at hok
    obtain ⟨rfl, rfl, rfl⟩ : sp = spent ∧ feeChange = feeUsed ∧ ch = change := by
      simpa using hok
    exact ⟨by omega, hch⟩
  · rw [heq] at hok
    simp at hok

open Wallet in
/-- Witness for C6 at a concrete input. -/
theorem c6_balance_witness :
    (([((1 : Nat), (50 : Int))].map Prod.snd).sum = 49 + 1 + 0 ∧ (0 : Int) ≤ 0) :=
  c6_balance [((0 : Nat), (100 : Int)), (1, 50), (2, 10), (3, 2), (4, 1)] 49 1 2
    (by decide) (by decide) (by decide) (by decide)
    [(1, 50)] 1 0 rfl

open Wallet in
/-- C10: with nonnegative arguments and amounts, `find_utxo` returns `Ok`
whenever the total of the available amounts is at least `sum + fee_change`,
and returns `NotEnoughMoney` only when the total is strictly below
`sum + fee_change`. -/
theorem c10_not_enough_money {α : Type} (unspent : List (α × Int)) (sum fee feeChange : Int)
    (h1 : 0 ≤ sum) (h2 : 0 ≤ fee) (h3 : 0 ≤ feeChange)
    (hamounts : ∀ p ∈ unspent, 0 ≤ p.2) :
    ((sum + feeChange ≤ (unspent.map Prod.snd).sum) →
      ∃ r, find_utxo unspent sum fee feeChange = Except.ok r) ∧
    (find_utxo unspent sum fee feeChange = Except.error WalletError.notEnoughMoney →
      (unspent.map Prod.snd).sum < sum + feeChange) := by
  rcases find_utxo_spec unspent sum fee feeChange h1 h2 h3 with
    ⟨sp, heq, hsum⟩ | ⟨sp, ch, heq, hch, hsum⟩ | ⟨heq, hlt⟩
  · refine ⟨fun _ => ⟨(sp, fee, 0), heq⟩, fun herr => ?_⟩
    rw [heq] at herr
    simp at herr
  · refine ⟨fun _ => ⟨(sp, feeChange, ch), heq⟩, fun herr => ?_⟩
    rw [heq] at herr
    simp at herr
  · refine ⟨fun hge => absurd hlt (by omega), fun _ => hlt⟩

open Wallet in
/-- Witness for C10 at a concrete input. -/
theorem c10_not_enough_money_witness :
    ((49 + 2 ≤ (([((0 : Nat), (100 : Int)), (1, 50), (2, 10), (3, 2), (4, 1)]).map
        Prod.snd).sum) →
      ∃ r, find_utxo [((0 : Nat), (100 : Int)), (1, 50), (2, 10), (3, 2), (4, 1)] 49 1 2 =
        Except.ok r) ∧
    (find_utxo [((0 : Nat), (100 : Int)), (1, 50), (2, 10), (3, 2), (4, 1)] 49 1 2 =
        Except.error WalletError.notEnoughMoney →
      (([((0 : Nat), (100 : Int)), (1, 50), (2, 10), (3, 2), (4, 1)]).map Prod.snd).sum <
        49 + 2) :=
  c10_not_enough_money [((0 : Nat), (100 : Int)), (1, 50), (2, 10), (3, 2), (4, 1)] 49 1 2
    (by decide) (by decide) (by decide) (by decide)

end Stegos

namespace Stegos

namespace Node

/-- `BaseBlockHeader` (crate `stegos_blockchain`, not under src/).  Modelled
from the spec: "{version, previous-hash, height, view, timestamp,
randomness}"; only the fields the node driver reads are kept. -/
structure BaseHeader where
  previous : Nat
  height : Nat
  viewChange : Nat
  random : Nat
deriving DecidableEq

/-- A sealed `Block` (crate `stegos_blockchain`): a leader-signed micro block
with an optional view-change proof, or a multi-signed macro block.  `payload`
stands for the transaction body, so that distinct blocks with equal headers
exist; a view-change proof is an opaque token validated by `Env`. -/
inductive Block where
  | micro (base : BaseHeader) (pkey : Nat) (sig : Int)
      (viewChangeProof : Option Nat) (payload : Nat)
  | macroB (base : BaseHeader) (multisig : Int) (multisigmap : List Nat) (payload : Nat)
deriving DecidableEq

def Block.base : Block → BaseHeader
  | .micro b _ _ _ _ => b
  | .macroB b _ _ _ => b

/-- Cantor pairing, the injection used to give blocks collision-free
digests. -/
def pairN (a b : Nat) : Nat := (a + b) * (a + b + 1) / 2 + b

def encInt (i : Int) : Nat := 2 * i.natAbs + (if i < 0 then 1 else 0)

def encOpt : Option Nat → Nat
  | none => 0
  | some n => n + 1

def encList : List Nat → Nat
  | [] => 0
  | x :: rest => pairN x (encList rest) + 1

def encHeader (b : BaseHeader) : Nat :=
  pairN b.previous (pairN b.height (pairN b.viewChange b.random))

/-- `Hash::digest` of a block: canonical hashing is modelled as an injective
structural encoding (a collision-free hash). -/
def digest : Block → Nat
  | .micro b pk sg proof payload =>
    2 * pairN (encHeader b) (pairN pk (pairN (encInt sg) (pairN (encOpt proof) payload)))
  | .macroB b ms msm payload =>
    2 * pairN (encHeader b) (pairN (encInt ms) (pairN (encList msm) payload)) + 1

/-- `ChainInfo` (crate `stegos_blockchain`).  Modelled from the spec:
"ChainInfo — {height, last_block, view}". -/
structure ChainInfo where
  height : Nat
  lastBlock : Nat
  viewChange : Nat
deriving DecidableEq

/-- The abstract `Blockchain` capability (spec §6) as seen by the driver:
`blocks` is the applied chain (`blocks.length` is `height()`,
`block_by_height h` is `blocks[h]`), plus the tip view-change state,
the election randomness and the validator set. -/
structure Chain where
  blocks : List Block
  lastMacroHeight : Nat
  viewChange : Nat
  viewChangeProof : Option Nat
  random : Nat
  validators : List Nat
deriving DecidableEq

def Chain.height (c : Chain) : Nat := c.blocks.length

def Chain.blockByHeight (c : Chain) (h : Nat) : Option Block := c.blocks.get? h

/-- `chain.last_block_hash()`. -/
def Chain.lastBlockHash (c : Chain) : Nat :=
  match c.blocks.getLast? with
  | some b => digest b
  | none => 0

/-- The driver state owned by `NodeService` that the fork-resolution and
block-ingestion paths touch, together with an event log: `cheats` / `forks`
are the `CHEATS` / `FORKS` metrics, `sentBlocksTo` logs `send_blocks`,
`historyRequests` counts `request_history()` calls,
`historyRequestedFrom` logs `request_history_from(pkey)` calls, and
`outputsChanged` counts `OutputsChanged` notifications. -/
structure NodeState where
  chain : Chain
  futureBlocks : List (Nat × Block)
  cheats : Nat
  forks : Nat
  sentBlocksTo : List Nat
  historyRequests : Nat
  historyRequestedFrom : List Nat
  outputsChanged : Nat
deriving DecidableEq

/-- External collaborators of the driver that live outside src/ — modelled
from the spec: `selectLeader random view` is the deterministic VRF-seeded
leader selection ("`leader(view)` is a deterministic VRF-seeded selection
using the last block's randomness mixed with `view`"); `validateProof` is
`SealedViewChangeProof::validate` against a ChainInfo and the chain;
`checkMacroSig` is the blockchain crate's multi-signature check with
supermajority. -/
structure Env where
  selectLeader : Nat → Nat → Nat
  validateProof : Nat → ChainInfo → Chain → Bool
  checkMacroSig : Chain → Block → Bool

/-- The error values the modelled paths can produce. -/
inductive NodeError where
  | expectedMicroBlock (height : Nat) (hash : Nat)
  | differentPublicKey (expected got : Nat)
  | noProofWasFound (height : Nat) (hash : Nat) (viewChange : Nat)
  | invalidViewChangeProof (height : Nat)
  | invalidBlockSignature (height : Nat) (hash : Nat)
  | invalidLeaderSignature (height : Nat) (hash : Nat)
  | leaderIsNotValidator (height : Nat) (hash : Nat)
  | blockNotFound (height : Nat)
deriving DecidableEq

/-- `ForkResult` (`Result<(), ForkError>` with `ForkError = Canceled |
Error(e)`); `panicked` stands for a failed `assert!` / `panic!`. -/
inductive ForkResult where
  | accepted
  | canceled
  | failed (e : NodeError)
  | panicked
deriving DecidableEq

/-- `send_blocks(pkey, height)` (loader, not under src/).  Modelled from the
spec: "push local blocks from [h, tip] back to the remote peer" — an
effect-only send, always succeeding. -/
def sendBlocks (st : NodeState) (pk : Nat) (_height : Nat) : NodeState :=
  { st with sentBlocksTo := st.sentBlocksTo ++ [pk] }

/-- `request_history()` (chain loader, not under src/).  Modelled from the
spec: "request history from leader" — effect only. -/
def requestHistory (st : NodeState) : NodeState :=
  { st with historyRequests := st.historyRequests + 1 }

/-- `request_history_from(pkey)` (chain loader, not under src/): effect
only. -/
def requestHistoryFrom (st : NodeState) (pk : Nat) : NodeState :=
  { st with historyRequestedFrom := st.historyRequestedFrom ++ [pk] }

/-- One `chain.pop_micro_block()` plus its `OutputsChanged` notification
(lib.rs:609-619 loop body). -/
def popOnce (st : NodeState) : NodeState :=
  { st with
    chain := { st.chain with blocks := st.chain.blocks.dropLast },
    outputsChanged := st.outputsChanged + 1 }

/-- The truncation loop `while self.chain.height() > height` of
`try_rollback` (lib.rs:609-619). -/
def popToHeight (st : NodeState) (h : Nat) : NodeState :=
  if hlt : h < st.chain.height then
    popToHeight (popOnce st) h
  else st
termination_by st.chain.blocks.length
decreasing_by
  simp only [popOnce, Chain.height] at *
  rw [List.length_dropLast]
  omega

end Node

end Stegos

namespace Stegos

namespace Node

/-- The tail of `try_rollback` (lib.rs:551-624) after the local `ChainInfo`
has been determined: view-change comparison, previous-hash comparison, proof
validation, truncation, and `set_view_change(remote_view + 1, proof)`. -/
def tryRollbackWith (env : Env) (st : NodeState) (pkey : Nat)
    (proofChain : ChainInfo) (proof : Nat) (localInfo : ChainInfo) :
    ForkResult × NodeState :=
  if proofChain.viewChange < localInfo.viewChange then (.canceled, st)
  else if proofChain.lastBlock ≠ localInfo.lastBlock then
    (.canceled, requestHistoryFrom st pkey)
  else if ¬ env.validateProof proof proofChain st.chain then
    (.failed (.invalidViewChangeProof proofChain.height), st)
  else
    let st1 := popToHeight { st with forks := st.forks + 1 } proofChain.height
    let st2 := { st1 with
      chain := { st1.chain with
        viewChange := proofChain.viewChange + 1,
        viewChangeProof := some proof } }
    (.accepted, st2)

/-- `try_rollback` (lib.rs:515-625). -/
def tryRollback (env : Env) (st : NodeState) (pkey : Nat)
    (proofChain : ChainInfo) (proof : Nat) : ForkResult × NodeState :=
  let height := proofChain.height
  if height ≤ st.chain.lastMacroHeight then (.canceled, st)
  else if height < st.chain.height then
    match st.chain.blockByHeight height with
    | none => (.failed (.blockNotFound height), st)
    | some local_ =>
      match local_ with
      | .macroB _ _ _ _ => (.panicked, st)
      | .micro lbase _ _ _ _ =>
        tryRollbackWith env st pkey proofChain proof
          { height := lbase.height, lastBlock := lbase.previous,
            viewChange := lbase.viewChange }
  else if height = st.chain.height then
    tryRollbackWith env st pkey proofChain proof
      { height := st.chain.height, lastBlock := st.chain.lastBlockHash,
        viewChange := st.chain.viewChange }
  else (.canceled, st)

/-- `resolve_fork` (lib.rs:424-512).  The leading `assert!`s (remote height
strictly between the last macro block and the tip) yield `panicked` when
violated.  Note lib.rs:460: the duplicate test compares `local_hash` with
itself, so the equal-view branch always cancels without reaching the
`CHEATS` metric. -/
def resolveFork (env : Env) (st : NodeState) (remote : Block) :
    ForkResult × NodeState :=
  let height := remote.base.height
  if ¬(height < st.chain.height ∧ 0 < height ∧ st.chain.lastMacroHeight < height) then
    (.panicked, st)
  else
    let remoteHash := digest remote
    match remote with
    | .macroB _ _ _ _ => (.failed (.expectedMicroBlock height remoteHash), st)
    | .micro rbase rpkey _rsig rproof _rpayload =>
      let remoteViewChange := rbase.viewChange
      match st.chain.blockByHeight height with
      | none => (.failed (.blockNotFound height), st)
      | some local_ =>
        let localHash := digest local_
        match local_ with
        | .macroB _ _ _ _ => (.panicked, st)
        | .micro lbase _ _ _ _ =>
          match st.chain.blockByHeight (height - 1) with
          | none => (.failed (.blockNotFound (height - 1)), st)
          | some previousBlock =>
            let leader := env.selectLeader previousBlock.base.random remoteViewChange
            if leader ≠ rpkey then
              (.failed (.differentPublicKey leader rpkey), st)
            else if remoteViewChange = lbase.viewChange then
              if localHash = localHash then (.canceled, st)
              else (.canceled, { st with cheats := st.cheats + 1 })
            else if remoteViewChange ≤ lbase.viewChange then
              (.canceled, sendBlocks st leader height)
            else
              match rproof with
              | none => (.failed (.noProofWasFound height remoteHash remoteViewChange), st)
              | some proof =>
                tryRollback env st rpkey
                  { height := rbase.height, lastBlock := rbase.previous,
                    viewChange := rbase.viewChange } proof

/-- Result of the abstract `apply_new_block` (spec §4.5; the applier mutates
the chain, mempool and role state but neither the orphan buffer nor the
chain-loader): either the updated chain, or a rejection whose flag records
whether the error downcasts to `InvalidPreviousHash`. -/
inductive ApplyResult where
  | applied (chain : Chain)
  | rejected (invalidPreviousHash : Bool)

/-- `BTreeMap::remove(&key)` on the height-ordered orphan buffer. -/
def removeKey : List (Nat × Block) → Nat → Option (Block × List (Nat × Block))
  | [], _ => none
  | (k, b) :: rest, h =>
    if k = h then some (b, rest)
    else
      match removeKey rest h with
      | none => none
      | some (b2, rest2) => some (b2, (k, b) :: rest2)

theorem removeKey_length :
    ∀ (l : List (Nat × Block)) (h : Nat) (b : Block) (rest : List (Nat × Block)),
      removeKey l h = some (b, rest) → rest.length + 1 = l.length := by
  intro l
  induction l with
  | nil => intro h b rest hr; simp [removeKey] at hr
  | cons p tail ih =>
    intro h b rest hr
    obtain ⟨k, bk⟩ := p
    by_cases hk : k = h
    · simp only [removeKey, if_pos hk] at hr
      cases hr
      simp
    · simp only [removeKey, if_neg hk] at hr
      cases htail : removeKey tail h with
      | none => rw [htail] at hr; cases hr
      | some pr =>
        obtain ⟨b2, rest2⟩ := pr
        rw [htail] at hr
        have hr2 : b2 = b ∧ (k, bk) :: rest2 = rest := by
          simpa using hr
        obtain ⟨hb2, hrest2⟩ := hr2
        have hlen := ih h b2 rest2 htail
        rw [← hrest2]
        simp only [List.length_cons]
        omega

/-- `BTreeMap::insert` on the orphan buffer (lib.rs:720), keeping keys
sorted and replacing an existing key. -/
def insertSorted : List (Nat × Block) → Nat → Block → List (Nat × Block)
  | [], h, b => [(h, b)]
  | (k, bk) :: rest, h, b =>
    if h < k then (h, b) :: (k, bk) :: rest
    else if h = k then (h, b) :: rest
    else (k, bk) :: insertSorted rest h b

/-- The drain loop of `handle_sealed_block` (lib.rs:722-743): repeatedly
remove the buffered block at the current chain height and apply it; on a
rejection, request history from the view-change leader when the error is
`InvalidPreviousHash`, then stop.  The boolean records whether an apply
failed (the `break`). -/
def drainLoop (env : Env) (applyFn : Chain → Block → ApplyResult)
    (st : NodeState) : NodeState × Bool :=
  match hrk : removeKey st.futureBlocks st.chain.height with
  | none => (st, false)
  | some (b, rest) =>
    let st1 := { st with futureBlocks := rest }
    match applyFn st1.chain b with
    | .applied c => drainLoop env applyFn { st1 with chain := c }
    | .rejected invPrev =>
      if invPrev then
        (requestHistoryFrom st1 (env.selectLeader st1.chain.random b.base.viewChange), true)
      else (st1, true)
termination_by st.futureBlocks.length
decreasing_by
  have hlen := removeKey_length st.futureBlocks st.chain.height b rest hrk
  omega

/-- Lines 719-760 of `handle_sealed_block`: buffer the block, drain, then
request history from the current leader exactly when the buffer is still
non-empty. -/
def processPending (env : Env) (applyFn : Chain → Block → ApplyResult)
    (st : NodeState) : NodeState × Bool :=
  let r := drainLoop env applyFn st
  if r.1.futureBlocks.isEmpty then r else (requestHistory r.1, r.2)

/-- The "check block consistency" step (lib.rs:667-687): macro blocks go
through the blockchain crate's multi-signature check, micro blocks through
the leader-signature pairing check and validator membership. -/
def blockConsistencyCheck (env : Env) (c : Chain) (block : Block) : Option NodeError :=
  let blockHash := digest block
  let blockHeight := block.base.height
  match block with
  | .macroB _ _ _ _ =>
    if env.checkMacroSig c block then none
    else some (.invalidBlockSignature blockHeight blockHash)
  | .micro _ pkey sg _ _ =>
    if ¬ checkHash blockHash sg pkey then some (.invalidLeaderSignature blockHeight blockHash)
    else if ¬ c.validators.contains pkey then
      some (.leaderIsNotValidator blockHeight blockHash)
    else none

/-- Outcome of `handle_sealed_block`: `Ok(())`, an error, or a failed
`assert!`. -/
inductive HandleResult where
  | ok
  | failed (e : NodeError)
  | panicked
deriving DecidableEq

/-- `handle_sealed_block` (lib.rs:628-761), with `cfgBlocksInEpoch` the
`blocks_in_epoch` configuration value. -/
def handleSealedBlock (env : Env) (applyFn : Chain → Block → ApplyResult)
    (cfgBlocksInEpoch : Nat) (st : NodeState) (block : Block) :
    HandleResult × NodeState :=
  let blockHeight := block.base.height
  if blockHeight ≤ st.chain.lastMacroHeight then (.ok, st)
  else if blockHeight > st.chain.lastMacroHeight + cfgBlocksInEpoch then
    (.ok, requestHistory st)
  else
    match blockConsistencyCheck env st.chain block with
    | some e => (.failed e, st)
    | none =>
      if blockHeight < st.chain.height then
        match resolveFork env st block with
        | (.accepted, st1) =>
          if blockHeight = st1.chain.height then
            let r := processPending env applyFn
              { st1 with futureBlocks := insertSorted st1.futureBlocks blockHeight block }
            (.ok, r.1)
          else (.panicked, st1)
        | (.canceled, st1) =>
          if blockHeight < st1.chain.height then (.ok, st1) else (.panicked, st1)
        | (.failed e, st1) => (.failed e, st1)
        | (.panicked, st1) => (.panicked, st1)
      else
        let r := processPending env applyFn
          { st with futureBlocks := insertSorted st.futureBlocks blockHeight block }
        (.ok, r.1)

end Node

end Stegos

namespace Stegos

namespace Node

theorem popToHeight_frame (st : NodeState) (h : Nat) :
    (popToHeight st h).cheats = st.cheats ∧
    (popToHeight st h).historyRequests = st.historyRequests ∧
    (popToHeight st h).historyRequestedFrom = st.historyRequestedFrom ∧
    (popToHeight st h).futureBlocks = st.futureBlocks := by
  induction st, h using popToHeight.induct with
  | case1 st h hlt ih =>
    rw [popToHeight, dif_pos hlt]
    simpa [popOnce] using ih
  | case2 st h hlt =>
    rw [popToHeight, dif_neg hlt]
    exact ⟨rfl, rfl, rfl, rfl⟩

theorem tryRollbackWith_cheats (env : Env) (st : NodeState) (pkey : Nat)
    (pc : ChainInfo) (proof : Nat) (li : ChainInfo) :
    ((tryRollbackWith env st pkey pc proof li).2).cheats = st.cheats := by
  simp only [tryRollbackWith]
  split
  · rfl
  · split
    · rfl
    · split
      · rfl
      · have := (popToHeight_frame { st with forks := st.forks + 1 } pc.height).1
        simpa using this

theorem tryRollback_cheats (env : Env) (st : NodeState) (pkey : Nat)
    (pc : ChainInfo) (proof : Nat) :
    ((tryRollback env st pkey pc proof).2).cheats = st.cheats := by
  simp only [tryRollback]
  split
  · rfl
  · split
    · split
      · rfl
      · split
        · rfl
        · apply tryRollbackWith_cheats
    · split
      · apply tryRollbackWith_cheats
      · rfl

theorem resolveFork_cheats (env : Env) (st : NodeState) (remote : Block) :
    ((resolveFork env st remote).2).cheats = st.cheats := by
  simp only [resolveFork]
  split
  · rfl
  · split
    · rfl
    · split
      · rfl
      · split
        · rfl
        · split
          · rfl
          · split
            · rfl
            · split
              · split
                · rfl
                · rename_i hne
                  exact absurd trivial hne
              · split
                · rfl
                · split
                  · rfl
                  · apply tryRollback_cheats

end Node

end Stegos

namespace Stegos

namespace Node

/-- A trivial environment for concrete instances: leader `7`, all external
validations passing. -/
def envC : Env :=
  { selectLeader := fun _ _ => 7
    validateProof := fun _ _ _ => true
    checkMacroSig := fun _ _ => true }

/-- Concrete genesis-like block at height 0 with randomness 3. -/
def blockZero : Block := Block.micro ⟨0, 0, 0, 3⟩ 9 0 none 0

/-- Concrete locally applied micro block at height 1, view 0, producer 7. -/
def localOne : Block := Block.micro ⟨100, 1, 0, 4⟩ 7 0 none 0

/-- Concrete competing micro block from the same producer at the same height
and view, with a different payload (hence a different hash). -/
def remoteOne : Block := Block.micro ⟨100, 1, 0, 4⟩ 7 0 none 1

/-- Concrete chain holding `blockZero` and `localOne` (tip height 2). -/
def chainTwo : Chain :=
  { blocks := [blockZero, localOne]
    lastMacroHeight := 0
    viewChange := 0
    viewChangeProof := none
    random := 0
    validators := [7] }

/-- Concrete driver state over `chainTwo` with all counters zero. -/
def stTwo : NodeState :=
  { chain := chainTwo
    futureBlocks := []
    cheats := 0
    forks := 0
    sentBlocksTo := []
    historyRequests := 0
    historyRequestedFrom := []
    outputsChanged := 0 }

end Node

end Stegos

namespace Stegos

open Node in
/-- C2: the code at the failing input, and the reason the claim fails.  The
remote block satisfies every hypothesis of the claim (height below the tip
inside the epoch, producer equal to the selected leader, equal view_change,
different hash), and `resolve_fork` does return `Canceled` with no rollback —
but the duplicate test at lib.rs:460 compares `local_hash` with itself, so
the state (and with it the `CHEATS` metric) is returned unchanged; indeed
`resolve_fork` can never increment `CHEATS` on any input. -/
theorem c2_cheats_never_incremented :
    resolveFork envC stTwo remoteOne = (ForkResult.canceled, stTwo) ∧
    digest remoteOne ≠ digest localOne ∧
    remoteOne.base.viewChange = localOne.base.viewChange ∧
    (∀ (env : Env) (st : NodeState) (remote : Block),
      ((resolveFork env st remote).2).cheats = st.cheats) := by
  refine ⟨rfl, by decide, rfl, resolveFork_cheats⟩

end Stegos

namespace Stegos

namespace Node

theorem drainLoop_eq_none (env : Env) (applyFn : Chain → Block → ApplyResult)
    (st : NodeState) (hrk : removeKey st.futureBlocks st.chain.height = none) :
    drainLoop env applyFn st = (st, false) := by
  rw [drainLoop]
  split
  · rfl
  · rename_i b rest heq
    rw [hrk] at heq
    exact Option.noConfusion heq

theorem drainLoop_eq_applied (env : Env) (applyFn : Chain → Block → ApplyResult)
    (st : NodeState) (b : Block) (rest : List (Nat × Block)) (c : Chain)
    (hrk : removeKey st.futureBlocks st.chain.height = some (b, rest))
    (happ : applyFn st.chain b = .applied c) :
    drainLoop env applyFn st =
      drainLoop env applyFn { st with futureBlocks := rest, chain := c } := by
  rw [drainLoop]
  split
  · rename_i heq
    rw [hrk] at heq
    exact Option.noConfusion heq
  · rename_i b2 rest2 heq
    rw [hrk] at heq
    obtain ⟨rfl, rfl⟩ : b2 = b ∧ rest2 = rest := by
      constructor <;> · cases heq; rfl
    simp only [happ]

theorem drainLoop_eq_rejected (env : Env) (applyFn : Chain → Block → ApplyResult)
    (st : NodeState) (b : Block) (rest : List (Nat × Block)) (invPrev : Bool)
    (hrk : removeKey st.futureBlocks st.chain.height = some (b, rest))
    (happ : applyFn st.chain b = .rejected invPrev) :
    drainLoop env applyFn st =
      (if invPrev then
        (requestHistoryFrom { st with futureBlocks := rest }
          (env.selectLeader st.chain.random b.base.viewChange), true)
      else ({ st with futureBlocks := rest }, true)) := by
  rw [drainLoop]
  split
  · rename_i heq
    rw [hrk] at heq
    exact Option.noConfusion heq
  · rename_i b2 rest2 heq
    rw [hrk] at heq
    obtain ⟨rfl, rfl⟩ : b2 = b ∧ rest2 = rest := by
      constructor <;> · cases heq; rfl
    simp only [happ]

theorem drainLoop_historyRequests (env : Env) (applyFn : Chain → Block → ApplyResult)
    (st : NodeState) :
    ((drainLoop env applyFn st).1).historyRequests = st.historyRequests := by
  generalize hn : st.futureBlocks.length = n
  induction n using Nat.strong_induction_on generalizing st with
  | _ n ih =>
    cases hrk : removeKey st.futureBlocks st.chain.height with
    | none => rw [drainLoop_eq_none env applyFn st hrk]
    | some pr =>
      obtain ⟨b, rest⟩ := pr
      have hlen := removeKey_length _ _ _ _ hrk
      cases happ : applyFn st.chain b with
      | applied c =>
        rw [drainLoop_eq_applied env applyFn st b rest c hrk happ]
        have := ih rest.length (by omega) { st with futureBlocks := rest, chain := c } rfl
        simpa using this
      | rejected invPrev =>
        rw [drainLoop_eq_rejected env applyFn st b rest invPrev hrk happ]
        cases invPrev <;> simp [requestHistoryFrom]

theorem drainLoop_flag_false (env : Env) (applyFn : Chain → Block → ApplyResult)
    (st : NodeState) :
    (drainLoop env applyFn st).2 = false →
      ((drainLoop env applyFn st).1).historyRequestedFrom = st.historyRequestedFrom ∧
      removeKey ((drainLoop env applyFn st).1).futureBlocks
        ((drainLoop env applyFn st).1).chain.height = none := by
  generalize hn : st.futureBlocks.length = n
  induction n using Nat.strong_induction_on generalizing st with
  | _ n ih =>
    cases hrk : removeKey st.futureBlocks st.chain.height with
    | none =>
      rw [drainLoop_eq_none env applyFn st hrk]
      exact fun _ => ⟨rfl, hrk⟩
    | some pr =>
      obtain ⟨b, rest⟩ := pr
      have hlen := removeKey_length _ _ _ _ hrk
      cases happ : applyFn st.chain b with
      | applied c =>
        rw [drainLoop_eq_applied env applyFn st b rest c hrk happ]
        intro hfl
        have := ih rest.length (by omega) { st with futureBlocks := rest, chain := c } rfl hfl
        simpa using this
      | rejected invPrev =>
        rw [drainLoop_eq_rejected env applyFn st b rest invPrev hrk happ]
        cases invPrev <;> · intro hfl; simp at hfl

theorem drainLoop_all_applied (env : Env) (applyFn : Chain → Block → ApplyResult)
    (st : NodeState) (hall : ∀ c b, ∃ c2, applyFn c b = ApplyResult.applied c2) :
    (drainLoop env applyFn st).2 = false := by
  generalize hn : st.futureBlocks.length = n
  induction n using Nat.strong_induction_on generalizing st with
  | _ n ih =>
    cases hrk : removeKey st.futureBlocks st.chain.height with
    | none => rw [drainLoop_eq_none env applyFn st hrk]
    | some pr =>
      obtain ⟨b, rest⟩ := pr
      have hlen := removeKey_length _ _ _ _ hrk
      obtain ⟨c, happ⟩ := hall st.chain b
      rw [drainLoop_eq_applied env applyFn st b rest c hrk happ]
      exact ih rest.length (by omega) { st with futureBlocks := rest, chain := c } rfl

end Node

end Stegos

namespace Stegos

namespace Node

theorem processPending_spec (env : Env) (applyFn : Chain → Block → ApplyResult)
    (st : NodeState) :
    ((processPending env applyFn st).1).historyRequests =
      st.historyRequests +
        (if ((processPending env applyFn st).1).futureBlocks.isEmpty then 0 else 1) ∧
    ((∀ c b, ∃ c2, applyFn c b = ApplyResult.applied c2) →
      ((processPending env applyFn st).1).historyRequestedFrom = st.historyRequestedFrom ∧
      removeKey ((processPending env applyFn st).1).futureBlocks
        ((processPending env applyFn st).1).chain.height = none) := by
  have hreq := drainLoop_historyRequests env applyFn st
  by_cases he : ((drainLoop env applyFn st).1).futureBlocks.isEmpty
  · constructor
    · simp [processPending, he, hreq]
    · intro hall
      have hfl := drainLoop_all_applied env applyFn st hall
      have := drainLoop_flag_false env applyFn st hfl
      simp [processPending, he, this.1, this.2]
  · constructor
    · simp [processPending, he, requestHistory, hreq]
    · intro hall
      have hfl := drainLoop_all_applied env applyFn st hall
      have := drainLoop_flag_false env applyFn st hfl
      simp [processPending, he, requestHistory, this.1, this.2]

/-- Concrete macro block at height 2 closing nothing, used as witness
input. -/
def macroTwo : Block := Block.macroB ⟨0, 2, 0, 0⟩ 0 [] 0

end Node

end Stegos

namespace Stegos

open Node in
/-- C8: a block whose height is at or below the last macro block boundary is
ignored: `handle_sealed_block` returns `Ok(())` and the whole driver state —
chain, orphan buffer, metrics, event log — is returned unchanged; in
particular no fork resolution, no apply, and no history request happen. -/
theorem c8_stale_block_ignored (env : Env) (applyFn : Chain → Block → ApplyResult)
    (cfgBlocksInEpoch : Nat) (st : NodeState) (block : Block)
    (h : block.base.height ≤ st.chain.lastMacroHeight) :
    handleSealedBlock env applyFn cfgBlocksInEpoch st block = (HandleResult.ok, st) := by
  simp only [handleSealedBlock]
  rw [if_pos h]

open Node in
/-- Witness for C8 at a concrete input. -/
theorem c8_stale_block_ignored_witness :
    handleSealedBlock envC (fun c _ => ApplyResult.applied c) 5 stTwo blockZero =
      (HandleResult.ok, stTwo) :=
  c8_stale_block_ignored envC (fun c _ => ApplyResult.applied c) 5 stTwo blockZero
    (by decide)

open Node in
/-- C9: after `handle_sealed_block` buffers a current-epoch block (no fork
path taken), it drains the buffer by repeatedly removing and applying the
block at the current chain height, and afterwards requests history from the
current leader exactly when the buffer is still non-empty; when every apply
succeeds no targeted history request is made and the loop stops only once no
buffered block sits at the chain height — so a fully drained buffer causes no
history request at all. -/
theorem c9_orphan_drain (env : Env) (applyFn : Chain → Block → ApplyResult)
    (cfgBlocksInEpoch : Nat) (st : NodeState) (block : Block)
    (h1 : st.chain.lastMacroHeight < block.base.height)
    (h2 : block.base.height ≤ st.chain.lastMacroHeight + cfgBlocksInEpoch)
    (h3 : blockConsistencyCheck env st.chain block = none)
    (h4 : ¬ block.base.height < st.chain.height) :
    ∃ st2, handleSealedBlock env applyFn cfgBlocksInEpoch st block = (HandleResult.ok, st2) ∧
      st2.historyRequests =
        st.historyRequests + (if st2.futureBlocks.isEmpty then 0 else 1) ∧
      ((∀ c b, ∃ c2, applyFn c b = ApplyResult.applied c2) →
        st2.historyRequestedFrom = st.historyRequestedFrom ∧
        removeKey st2.futureBlocks st2.chain.height = none) := by
  simp only [handleSealedBlock]
  rw [if_neg (show ¬ block.base.height ≤ st.chain.lastMacroHeight by omega),
    if_neg (show ¬ block.base.height > st.chain.lastMacroHeight + cfgBlocksInEpoch by omega)]
  simp only [h3]
  rw [if_neg h4]
  refine ⟨(processPending env applyFn
    { st with futureBlocks := insertSorted st.futureBlocks block.base.height block }).1,
    rfl, ?_, ?_⟩
  · have := (processPending_spec env applyFn
      { st with futureBlocks := insertSorted st.futureBlocks block.base.height block }).1
    simpa using this
  · intro hall
    have := (processPending_spec env applyFn
      { st with futureBlocks := insertSorted st.futureBlocks block.base.height block }).2 hall
    simpa using this

open Node in
/-- Witness for C9 at a concrete input: a macro block at the tip height of a
two-block chain; the buffer drains completely and no history is requested. -/
theorem c9_orphan_drain_witness :
    ∃ st2, handleSealedBlock envC (fun c _ => ApplyResult.applied c) 5 stTwo macroTwo =
        (HandleResult.ok, st2) ∧
      st2.historyRequests =
        stTwo.historyRequests + (if st2.futureBlocks.isEmpty then 0 else 1) ∧
      ((∀ c b, ∃ c2, (fun (c : Chain) (_ : Block) => ApplyResult.applied c) c b =
          ApplyResult.applied c2) →
        st2.historyRequestedFrom = stTwo.historyRequestedFrom ∧
        removeKey st2.futureBlocks st2.chain.height = none) :=
  c9_orphan_drain envC (fun c _ => ApplyResult.applied c) 5 stTwo macroTwo
    (by decide) (by decide) (by decide) (by decide)

end Stegos
